import Mathlib

/-!
Verification of the `helpers` repository (Go): string-slice utilities,
the interactive UI layer (`SelectOption`, `UpdateValue`, `Tag`/`unTag`),
the spinner coordination (`SpinWhileThingsHappen`) and the filesystem
helpers (`DeleteEmptyFolders`, `CopyDir`, `GetUniqueTimestampedFilename`).

Each Go function is shallowly embedded as an executable Lean definition.
Strings are Lean `String`s (lists of unicode scalar values, matching Go's
rune semantics); stateful loops are embedded as recursion with explicit
fuel where the Go loop is not structurally terminating; user input and
the filesystem are passed explicitly as values.
-/

set_option maxHeartbeats 1000000

/-! ### Slice helpers (slices.go)

`StringInSlice`, `RemoveDuplicates`, `StringInSliceCaseInsensitive` and
`CaseInsensitiveContains`.  `RemoveDuplicates` is embedded operationally:
the Go function filters the slice in place, writing kept elements back at
index `j` while reading at index `i` (`(*options)[j] = (*options)[i]`),
and finally reslices to `(*options)[:j]`.  The embedding keeps the
mutating array (`List.set`), the write cursor `j` and the `found` map
(as the list of marked strings). -/

/-- Loop of `StringInSlice`: return the index of the first occurrence and
`true`, or `(-1, false)`. -/
def stringInSliceAux (a : String) : List String → Int → Int × Bool
  | [], _ => (-1, false)
  | b :: rest, i => if b = a then (i, true) else stringInSliceAux a rest (i + 1)

/-- Embedding of Go `StringInSlice(a string, list []string) (index int, isIn bool)`. -/
def StringInSlice (a : String) (list : List String) : Int × Bool :=
  stringInSliceAux a list 0

/-- Embedding of Go `strings.ToLower` (per-rune lowering; ASCII range modelled). -/
def goToLower (s : String) : String := ⟨s.data.map Char.toLower⟩

/-- Embedding of Go `strings.ToUpper` (per-rune uppering; ASCII range modelled). -/
def goToUpper (s : String) : String := ⟨s.data.map Char.toUpper⟩

/-- Embedding of Go `CaseInsensitiveContains(s, substr string) bool`:
`strings.Contains` on the lowered strings, i.e. the lowered `substr` is an
infix of the lowered `s`. -/
def CaseInsensitiveContains (s substr : String) : Bool :=
  decide ((goToLower substr).data <:+: (goToLower s).data)

/-- One step of the `for i, x := range *options` loop of `RemoveDuplicates`:
`n` is the number of remaining iterations, `i` the read index, `arr` the
current (mutated) backing array, `j` the write index, `found` the set of
strings already marked in the `found` map.  Returns the final array and `j`. -/
def rdLoop : ℕ → ℕ → List String → ℕ → List String → List String × ℕ
  | 0, _, arr, j, _ => (arr, j)
  | n + 1, i, arr, j, found =>
    let x := arr.getD i ""
    if x ∈ found ∨ x = "" then rdLoop n (i + 1) arr j found
    else rdLoop n (i + 1) (arr.set j x) (j + 1) (x :: found)

/-- Embedding of Go `RemoveDuplicates(options *[]string, otherStringsToClean ...string)`
(identical in `slices.go` and `ui/ui.go`): pre-mark `otherStringsToClean`
in `found`, run the in-place filter loop, reslice to `[:j]`. -/
def RemoveDuplicates (options : List String) (otherStringsToClean : List String) : List String :=
  ((rdLoop options.length 0 options 0 otherStringsToClean).1).take
    (rdLoop options.length 0 options 0 otherStringsToClean).2

/-- Recursive characterization of the `RemoveDuplicates` loop: keep an element
iff it is not yet in `found` and not empty, marking kept elements. -/
def rdAux (found : List String) : List String → List String
  | [] => []
  | x :: xs => if x ∈ found ∨ x = "" then rdAux found xs else x :: rdAux (x :: found) xs

/-! ### UI layer (ui/ui.go)

`SelectOption` and `UpdateValue` read user input through `GetInput` (a
trimmed line of stdin, or a scan error), confirm values through `Accept`
(one more stdin line; `"y"`, `"Y"` or `"yes"` accepts, a scan error
rejects) and obtain long-field values through `Edit` (the external
`$EDITOR`; modelled as a separate stream of edit results, an exhausted
stream standing for an `Edit` failure).  Both functions loop; every
iteration first consumes one stdin line, so the loops are embedded with
explicit fuel counting loop iterations (`none` = fuel exhausted, i.e. the
Go loop is still running after that many iterations). -/

/-- Error outcomes of the UI functions: a `GetInput` scan error, an `Edit`
failure, or an error message built with `errors.New`. -/
inductive UIErr where
  | scanErr : UIErr
  | editErr : UIErr
  | msg (s : String) : UIErr
deriving DecidableEq

/-- Constant `invalidChoice = "Invalid choice."` from ui.go. -/
def invalidChoice : String := "Invalid choice."

/-- Constant `userAborted = "User aborted."` from ui.go. -/
def userAborted : String := "User aborted."

/-- Constant `LocalTag` from ui.go. -/
def LocalTag : String := "[current] "

/-- Constant `OnlineTag` from ui.go. -/
def OnlineTag : String := "[online/new] "

/-- Modelled from the spec: the `ui` package's colour helper `CyanBold` is
defined in a ui source file that is not part of the sources (only its
callers are).  It renders its argument in bold cyan, modelled as wrapping
in ANSI SGR escape sequences. -/
def CyanBold (s : String) : String := "\x1b[1;36m" ++ s ++ "\x1b[0m"

/-- Modelled from the spec: the `ui` package's colour helper `YellowBold`,
like `CyanBold`, is not in the sources; modelled as ANSI SGR wrapping. -/
def YellowBold (s : String) : String := "\x1b[1;33m" ++ s ++ "\x1b[0m"

/-- Embedding of Go `strings.Replace(s, old, new, -1)` specialised to
`new = ""`: repeatedly remove the leftmost occurrence of `pat`,
continuing after the removed occurrence.  (For `pat = ""` Go inserts
`new` everywhere, which for `new = ""` returns `s` unchanged, as here.) -/
def replaceAll (s pat : List Char) : List Char :=
  match s with
  | [] => []
  | c :: rest =>
    if pat ≠ [] ∧ pat.isPrefixOf (c :: rest)
    then replaceAll ((c :: rest).drop pat.length) pat
    else c :: replaceAll rest pat
termination_by s.length
decreasing_by
  · rename_i h
    have hp : 0 < pat.length := List.length_pos.2 h.1
    simp only [List.length_drop, List.length_cons]
    omega
  · simp only [List.length_cons]
    omega

/-- Embedding of Go `strings.TrimSpace` on rune lists: drop whitespace
from both ends. -/
def trimSpaceL (s : List Char) : List Char :=
  ((s.dropWhile Char.isWhitespace).reverse.dropWhile Char.isWhitespace).reverse

/-- Embedding of Go `strings.TrimSpace` on strings. -/
def trimSpaceS (s : String) : String := ⟨trimSpaceL s.data⟩

/-- Embedding of `Tag` (ui.go): prepend the rendered local/online tag. -/
def Tag (entry : String) (isLocal : Bool) : String :=
  if isLocal then CyanBold LocalTag ++ entry else YellowBold OnlineTag ++ entry

/-- Embedding of `unTag` (ui.go): remove every occurrence of the rendered
`LocalTag` and of the rendered `OnlineTag`, then trim whitespace. -/
def unTag (option : String) : String :=
  ⟨trimSpaceL (replaceAll (replaceAll option.data (CyanBold LocalTag).data)
      (YellowBold OnlineTag).data)⟩

/-- The ten decimal digit runes accepted by `strconv.Atoi`. -/
def digitChars : List Char := ['0', '1', '2', '3', '4', '5', '6', '7', '8', '9']

/-- Decimal value of a nonempty all-digit rune list, `none` otherwise. -/
def digitsVal (ds : List Char) : Option ℕ :=
  if ds ≠ [] ∧ ds.all (fun c => decide (c ∈ digitChars))
  then some (ds.foldl (fun a c => a * 10 + (c.toNat - 48)) 0) else none

/-- Embedding of Go `strconv.Atoi`: an optional sign followed by a
nonempty digit string.  (The 64-bit range error is not modelled; the
claims only use values bounded by a list length.) -/
def goAtoi (s : String) : Option Int :=
  match s.data with
  | [] => none
  | c :: cs =>
    if c = '+' then (digitsVal cs).map (fun n => (n : Int))
    else if c = '-' then (digitsVal cs).map (fun n => -(n : Int))
    else (digitsVal (c :: cs)).map (fun n => (n : Int))

/-- One iteration of the `for !validChoice` loop of `SelectOption`, over
the deduplicated `opts`: read a choice line; `E` edits (editor stream if
`longField`, else one more stdin line) and asks `Accept`, returning the
edited value when confirmed; `A` aborts with `userAborted`; `B` returns
the empty string; a number in `[1, len(opts)]` returns the untagged
option; anything else (and an unconfirmed edit) increments `errs` and
gives up with the `invalidChoice` error as soon as `errs` exceeds 10. -/
def selLoop (opts : List String) (longField : Bool) :
    ℕ → List String → List String → ℕ → Option (Except UIErr String)
  | 0, _, _, _ => none
  | fuel + 1, stdin, editor, errs =>
    match stdin with
    | [] => some (Except.error UIErr.scanErr)
    | choice :: stdin1 =>
      if goToUpper choice = "E" then
        if longField then
          match editor with
          | [] => some (Except.error UIErr.editErr)
          | edited :: editor1 =>
            match stdin1 with
            | [] =>
              if errs + 1 > 10 then some (Except.error (UIErr.msg invalidChoice))
              else selLoop opts longField fuel [] editor1 (errs + 1)
            | ans :: stdin2 =>
              if ans = "y" ∨ ans = "Y" ∨ ans = "yes" then some (Except.ok edited)
              else if errs + 1 > 10 then some (Except.error (UIErr.msg invalidChoice))
              else selLoop opts longField fuel stdin2 editor1 (errs + 1)
        else
          match stdin1 with
          | [] => some (Except.error UIErr.scanErr)
          | edited :: stdin2 =>
            match stdin2 with
            | [] =>
              if errs + 1 > 10 then some (Except.error (UIErr.msg invalidChoice))
              else selLoop opts longField fuel [] editor (errs + 1)
            | ans :: stdin3 =>
              if ans = "y" ∨ ans = "Y" ∨ ans = "yes" then some (Except.ok edited)
              else if errs + 1 > 10 then some (Except.error (UIErr.msg invalidChoice))
              else selLoop opts longField fuel stdin3 editor (errs + 1)
      else if goToUpper choice = "A" then some (Except.error (UIErr.msg userAborted))
      else if goToUpper choice = "B" then some (Except.ok "")
      else
        match goAtoi choice with
        | some index =>
          if 0 < index ∧ index ≤ (opts.length : Int)
          then some (Except.ok (unTag (opts.getD (index.toNat - 1) "")))
          else if errs + 1 > 10 then some (Except.error (UIErr.msg invalidChoice))
          else selLoop opts longField fuel stdin1 editor (errs + 1)
        | none =>
          if errs + 1 > 10 then some (Except.error (UIErr.msg invalidChoice))
          else selLoop opts longField fuel stdin1 editor (errs + 1)

/-- Embedding of `SelectOption` (ui.go): deduplicate the options with
`RemoveDuplicates`, then run the choice loop with `errs = 0`. -/
def SelectOption (options : List String) (longField : Bool) (fuel : ℕ)
    (stdin editor : List String) : Option (Except UIErr String) :=
  selLoop (RemoveDuplicates options []) longField fuel stdin editor 0

/-- One iteration of the `for !validChoice` loop of `UpdateValue`: read a
choice line; `e` edits and asks `Accept` (`Confirm`), an unconfirmed edit
just loops again without touching `errs`; `k` keeps the old value; any
other input increments `errs` and gives up with the `invalidChoice` error
as soon as `errs` exceeds 10.  The accepted value is returned trimmed
(`strings.TrimSpace(newValue)`). -/
def updLoop (oldValue : String) (longField : Bool) :
    ℕ → List String → List String → ℕ → Option (Except UIErr String)
  | 0, _, _, _ => none
  | fuel + 1, stdin, editor, errs =>
    match stdin with
    | [] => some (Except.error UIErr.scanErr)
    | choice :: stdin1 =>
      if goToLower choice = "e" then
        if longField then
          match editor with
          | [] => some (Except.error UIErr.editErr)
          | v :: editor1 =>
            match stdin1 with
            | [] => updLoop oldValue longField fuel [] editor1 errs
            | ans :: stdin2 =>
              if ans = "y" ∨ ans = "Y" ∨ ans = "yes"
              then some (Except.ok (trimSpaceS v))
              else updLoop oldValue longField fuel stdin2 editor1 errs
        else
          match stdin1 with
          | [] => some (Except.error UIErr.scanErr)
          | v :: stdin2 =>
            match stdin2 with
            | [] => updLoop oldValue longField fuel [] editor errs
            | ans :: stdin3 =>
              if ans = "y" ∨ ans = "Y" ∨ ans = "yes"
              then some (Except.ok (trimSpaceS v))
              else updLoop oldValue longField fuel stdin3 editor errs
      else if goToLower choice = "k" then some (Except.ok (trimSpaceS oldValue))
      else if errs + 1 > 10 then some (Except.error (UIErr.msg invalidChoice))
      else updLoop oldValue longField fuel stdin1 editor (errs + 1)

/-- Embedding of `UpdateValue` (ui.go): run the edit-or-keep loop with
`errs = 0`. -/
def UpdateValue (oldValue : String) (longField : Bool) (fuel : ℕ)
    (stdin editor : List String) : Option (Except UIErr String) :=
  updLoop oldValue longField fuel stdin editor 0

/-! ### Spinner (time.go)

`SpinWhileThingsHappen` runs the worker `f` in a goroutine and a 100 ms
ticker in another, then `select`s repeatedly: a tick redraws the spinner,
the worker's completion value `err` either is returned directly (non-nil)
or ends the loop with the named return `err` still nil.  The
interleaving chosen by the scheduler and by `select` is embedded as the
list of events received on the two channels, a finite prefix of ticks
followed by the worker's single completion event. -/

/-- One event received by the `select` loop: a ticker tick on `c1`, or
the worker function's result on `c2` (`none` = the worker returned nil). -/
inductive SpinEvent where
  | tick : SpinEvent
  | done (result : Option String) : SpinEvent

/-- Embedding of `SpinWhileThingsHappen`'s select loop over the event
interleaving (`none` = the event list ended before the worker finished,
i.e. the loop is still running).  A tick prints and loops; a non-nil
worker error is returned as is; a nil worker result ends the loop and the
function returns the nil named return. -/
def SpinWhileThingsHappen : List SpinEvent → Option (Option String)
  | [] => none
  | SpinEvent.tick :: rest => SpinWhileThingsHappen rest
  | SpinEvent.done e :: _ =>
    match e with
    | some m => some (some m)
    | none => some none

/-! ### Filesystem helpers (filesystem.go)

A file tree is embedded as `FNode`: regular files, symlinks and
directories with a list of children (`ioutil.ReadDir` / `filepath.Walk`
order stands in for lexical order; the functions below treat siblings
independently, so the order is immaterial).  `IsDirectoryEmpty` is `children
= []`; `os.Remove` on an empty directory always succeeds. -/

/-- A node of the file tree: a regular file (name, contents), a symbolic
link, or a directory with its children. -/
inductive FNode where
  | file (name content : String) : FNode
  | symlink (name : String) : FNode
  | dir (name : String) (children : List FNode) : FNode

/-- One full `filepath.Walk` pass of `DeleteEmptyFolders` below the root:
the resulting sibling list.  `Walk` visits a directory before its
children, so a directory is removed exactly when its children list is
empty at its own visit; children emptied later in the same pass are only
seen by the next pass. -/
def passList : List FNode → List FNode
  | [] => []
  | FNode.file n c :: rest => FNode.file n c :: passList rest
  | FNode.symlink n :: rest => FNode.symlink n :: passList rest
  | FNode.dir _ [] :: rest => passList rest
  | FNode.dir n (c :: cs) :: rest => FNode.dir n (passList (c :: cs)) :: passList rest

/-- The number of directories removed by the same pass
(`deletedDirectoriesThisTime`). -/
def passCount : List FNode → ℕ
  | [] => 0
  | FNode.file _ _ :: rest => passCount rest
  | FNode.symlink _ :: rest => passCount rest
  | FNode.dir _ [] :: rest => passCount rest + 1
  | FNode.dir _ (c :: cs) :: rest => passCount (c :: cs) + passCount rest

/-- The `for !atLeastOnce || deletedDirectoriesThisTime != 0` loop of
`DeleteEmptyFolders`: run a pass; if it deleted nothing stop, otherwise
scan again.  `fuel` bounds the number of passes (`none` = the loop is
still running after `fuel` passes). -/
def deleteLoopFuel : ℕ → List FNode → Option (List FNode)
  | 0, _ => none
  | fuel + 1, cs =>
    if passCount cs = 0 then some (passList cs)
    else deleteLoopFuel fuel (passList cs)

/-- Number of directories in a sibling list (used as a pass bound: every
productive pass removes at least one directory). -/
def countDirs : List FNode → ℕ
  | [] => 0
  | FNode.file _ _ :: rest => countDirs rest
  | FNode.symlink _ :: rest => countDirs rest
  | FNode.dir _ cs :: rest => 1 + countDirs cs + countDirs rest

/-- Embedding of `DeleteEmptyFolders(root)`: the walk callback skips the
root itself (`if path == root { return }`), so the loop acts on the
root's children only; a non-directory root makes every pass a no-op. -/
def DeleteEmptyFolders (root : FNode) (fuel : ℕ) : Option FNode :=
  match root with
  | FNode.dir n cs => (deleteLoopFuel fuel cs).map (FNode.dir n)
  | FNode.file n c => some (FNode.file n c)
  | FNode.symlink n => some (FNode.symlink n)

/-- Does a sibling list contain, at any depth, a non-directory entry
(a file or symlink)?  A directory subtree with no such entry is exactly
one that repeated empty-directory deletion erases bottom-up. -/
def anyEntry : List FNode → Bool
  | [] => false
  | FNode.file _ _ :: _ => true
  | FNode.symlink _ :: _ => true
  | FNode.dir _ cs :: rest => anyEntry cs || anyEntry rest

/-- No directory anywhere in the sibling list is empty. -/
def noEmpty : List FNode → Bool
  | [] => true
  | FNode.file _ _ :: rest => noEmpty rest
  | FNode.symlink _ :: rest => noEmpty rest
  | FNode.dir _ [] :: _ => false
  | FNode.dir _ (c :: cs) :: rest => noEmpty (c :: cs) && noEmpty rest

/-- Specification of empty-folder cleanup, written from the claim: remove
every (proper) subdirectory that is empty or becomes empty once its empty
children are removed, i.e. every subtree containing no file or symlink. -/
def pruneList : List FNode → List FNode
  | [] => []
  | FNode.file n c :: rest => FNode.file n c :: pruneList rest
  | FNode.symlink n :: rest => FNode.symlink n :: pruneList rest
  | FNode.dir n cs :: rest =>
    if anyEntry cs then FNode.dir n (pruneList cs) :: pruneList rest
    else pruneList rest

/-- Is the node a directory (`FileInfo.IsDir`)? -/
def isDir : FNode → Bool
  | FNode.dir _ _ => true
  | _ => false

/-- Embedding of `CopyFile(src, dst)`: the source must be a regular file;
an existing non-regular destination is an error; otherwise the contents
are copied (an existing regular destination is overwritten; `os.SameFile`
never holds between the distinct src and dst paths used here). -/
def CopyFile (src : FNode) (dst : Option FNode) : Except String FNode :=
  match src with
  | FNode.file n c =>
    match dst with
    | none => Except.ok (FNode.file n c)
    | some (FNode.file _ _) => Except.ok (FNode.file n c)
    | some _ => Except.error "CopyFile: non-regular destination file"
  | _ => Except.error "CopyFile: non-regular source file"

/-- The entry loop of `CopyDir`: symlink entries are skipped, file
entries go through `CopyFile`, directory entries recurse.  The recursive
`CopyDir(srcPath, dstPath)` call re-runs the stat checks, which succeed
because the entry is a directory and the destination path is fresh
inside the just-created destination tree; after those checks it is this
same entry loop on the entry's children (see `CopyDir_dir_unfold`). -/
def copyChildren : List FNode → Except String (List FNode)
  | [] => Except.ok []
  | FNode.symlink _ :: rest => copyChildren rest
  | FNode.file n c :: rest =>
    match CopyFile (FNode.file n c) none with
    | Except.error e => Except.error e
    | Except.ok x =>
      match copyChildren rest with
      | Except.error e => Except.error e
      | Except.ok rs => Except.ok (x :: rs)
  | FNode.dir n cs :: rest =>
    match copyChildren cs with
    | Except.error e => Except.error e
    | Except.ok cs2 =>
      match copyChildren rest with
      | Except.error e => Except.error e
      | Except.ok rs => Except.ok (FNode.dir n cs2 :: rs)

/-- Embedding of `CopyDir(src, dst)`: `src`/`dst` are the nodes found at
the two paths (`none` = nothing there).  `os.Stat` failing on an absent
src returns its error; an existing non-directory src is
"source is not a directory"; an existing dst is "destination already
exists"; otherwise `os.MkdirAll` creates the destination and the entries
are copied.  (A symlink as the src path itself is not modelled:
`os.Stat` would follow it to a target outside this model.) -/
def CopyDir (src dst : Option FNode) : Except String FNode :=
  match src with
  | none => Except.error "source does not exist"
  | some (FNode.file _ _) => Except.error "source is not a directory"
  | some (FNode.symlink _) => Except.error "source is not a directory"
  | some (FNode.dir n cs) =>
    match dst with
    | some _ => Except.error "destination already exists"
    | none =>
      match copyChildren cs with
      | Except.error e => Except.error e
      | Except.ok cs2 => Except.ok (FNode.dir n cs2)

/-- Specification of recursive directory copy, written from the claim:
regular files are copied, subdirectories are recursed into, symlinks are
silently skipped. -/
def specCopyList : List FNode → List FNode
  | [] => []
  | FNode.file n c :: rest => FNode.file n c :: specCopyList rest
  | FNode.symlink _ :: rest => specCopyList rest
  | FNode.dir n cs :: rest => FNode.dir n (specCopyList cs) :: specCopyList rest

/-- Suffix added to the candidate name: empty on the first attempt,
`"_<attempts>"` afterwards. -/
def guSuffix (attempts : ℕ) : String :=
  if attempts = 0 then "" else "_" ++ toString attempts

/-- Candidate filename of `GetUniqueTimestampedFilename`:
`"<timestamp> - <base><suffix>.tar.gz"`. -/
def guCandidate (ts base : String) (attempts : ℕ) : String :=
  ts ++ " - " ++ base ++ guSuffix attempts ++ ".tar.gz"

/-- Embedding of `filepath.Join(dir, name)`. -/
def pathJoin (dir name : String) : String := dir ++ "/" ++ name

/-- The `for !uniqueNameFound || attempts > 50` loop of
`GetUniqueTimestampedFilename`, exactly as written in the source
(including the `||`): while the condition holds, build the candidate for
the current `attempts`; if it exists (`FileExists` returns nil) increment
`attempts`, otherwise record it and set `uniqueNameFound`.  `existing` is
the set of paths that exist as regular files; `fuel` bounds the number of
iterations (`none` = the loop is still running after `fuel` iterations). -/
def guLoop (existing : List String) (mk : ℕ → String) :
    ℕ → Bool → ℕ → String → Option String
  | 0, found, attempts, acc =>
    if found = false ∨ 50 < attempts then none else some acc
  | fuel + 1, found, attempts, acc =>
    if found = false ∨ 50 < attempts then
      if mk attempts ∈ existing then guLoop existing mk fuel found (attempts + 1) acc
      else guLoop existing mk fuel true attempts (mk attempts)
    else some acc

/-- Embedding of `GetUniqueTimestampedFilename(dir, filename)` at a fixed
timestamp `ts` with extension-stripped base `base`.  (The initial
`os.MkdirAll` for a missing `dir` always succeeds and does not affect
the loop, so it is not represented in the state.) -/
def GetUniqueTimestampedFilename (existing : List String) (dir ts base : String)
    (fuel : ℕ) : Option String :=
  guLoop existing (fun a => pathJoin dir (guCandidate ts base a)) fuel false 0 ""

/-- An input line that `SelectOption` accepts in no branch (with respect
to the deduplicated option list `opts`): not `E`, `A` or `B` in any case,
and not a number in `[1, len(opts)]`. -/
def invalidSelInput (opts : List String) (c : String) : Bool :=
  decide (goToUpper c ≠ "E") && decide (goToUpper c ≠ "A") && decide (goToUpper c ≠ "B") &&
    (match goAtoi c with
     | none => true
     | some i => decide (¬(0 < i ∧ i ≤ (opts.length : Int))))

/-- A directory state on which `GetUniqueTimestampedFilename` diverges:
the candidate files for attempts 0 through 50 all already exist. -/
def guBadExisting : List String :=
  (List.range 51).map (fun a => pathJoin "d" (guCandidate "2026-10-11 12:00:00" "file" a))

theorem take_succ_set (l : List α) (j : ℕ) (x : α) (h : j < l.length) :
    (l.set j x).take (j + 1) = l.take j ++ [x] := by
  induction l generalizing j with
  | nil => simp at h
  | cons a as ih =>
    cases j with
    | zero => simp
    | succ j' =>
      simp only [List.set_cons_succ, List.take_succ_cons, List.cons_append,
        List.cons.injEq, true_and]
      exact ih j' (by simpa using h)

theorem rdLoop_spec : ∀ (n i j : ℕ) (arr found : List String),
    j ≤ i → i + n = arr.length →
    ((rdLoop n i arr j found).1.take (rdLoop n i arr j found).2
      = arr.take j ++ rdAux found (arr.drop i))
    ∧ (rdLoop n i arr j found).2 = j + (rdAux found (arr.drop i)).length := by
  intro n
  induction n with
  | zero =>
    intro i j arr found hj hi
    have hd : arr.drop i = [] := List.drop_eq_nil_of_le (by omega)
    simp [rdLoop, hd, rdAux]
  | succ n ih =>
    intro i j arr found hj hi
    have hilt : i < arr.length := by omega
    have hdrop : arr.drop i = arr[i] :: arr.drop (i + 1) := List.drop_eq_getElem_cons hilt
    have hx : arr.getD i "" = arr[i] := by
      simp [List.getD_eq_getElem?_getD, List.getElem?_eq_getElem hilt]
    by_cases hc : arr[i] ∈ found ∨ arr[i] = ""
    · have hstep : rdLoop (n + 1) i arr j found = rdLoop n (i + 1) arr j found := by
        simp only [rdLoop, hx, if_pos hc]
      obtain ⟨ih1, ih2⟩ := ih (i + 1) j arr found (by omega) (by omega)
      rw [hstep, hdrop]
      simp only [rdAux, if_pos hc]
      exact ⟨ih1, ih2⟩
    · have hstep : rdLoop (n + 1) i arr j found
          = rdLoop n (i + 1) (arr.set j arr[i]) (j + 1) (arr[i] :: found) := by
        simp only [rdLoop, hx, if_neg hc]
      obtain ⟨ih1, ih2⟩ := ih (i + 1) (j + 1) (arr.set j arr[i]) (arr[i] :: found)
        (by omega) (by simp; omega)
      have h1 : (arr.set j arr[i]).take (j + 1) = arr.take j ++ [arr[i]] :=
        take_succ_set _ _ _ (by omega)
      have h2 : (arr.set j arr[i]).drop (i + 1) = arr.drop (i + 1) := by
        rw [List.drop_set, if_pos (by omega)]
      rw [hstep, hdrop]
      simp only [rdAux, if_neg hc]
      constructor
      · rw [ih1, h1, h2, List.append_assoc, List.singleton_append]
      · rw [ih2, h2]
        simp only [List.length_cons]
        omega

/-- `RemoveDuplicates` computes exactly the recursive filter `rdAux`. -/
theorem RemoveDuplicates_eq_rdAux (options other : List String) :
    RemoveDuplicates options other = rdAux other options := by
  obtain ⟨h1, _⟩ := rdLoop_spec options.length 0 0 options other (Nat.le_refl 0) (by omega)
  simpa [RemoveDuplicates] using h1

theorem rdAux_sublist : ∀ (found l : List String), List.Sublist (rdAux found l) l := by
  intro found l
  induction l generalizing found with
  | nil => simp [rdAux]
  | cons x xs ih =>
    rw [rdAux]
    by_cases hc : x ∈ found ∨ x = ""
    · rw [if_pos hc]
      exact (ih found).cons x
    · rw [if_neg hc]
      exact (ih (x :: found)).cons₂ x

theorem rdAux_mem : ∀ (found l : List String) (a : String),
    a ∈ rdAux found l ↔ a ∈ l ∧ a ∉ found ∧ a ≠ "" := by
  intro found l
  induction l generalizing found with
  | nil => simp [rdAux]
  | cons x xs ih =>
    intro a
    rw [rdAux]
    by_cases hc : x ∈ found ∨ x = ""
    · rw [if_pos hc]
      rw [ih found a]
      constructor
      · rintro ⟨h1, h2, h3⟩
        exact ⟨List.mem_cons_of_mem _ h1, h2, h3⟩
      · rintro ⟨h1, h2, h3⟩
        rcases List.mem_cons.1 h1 with rfl | h1
        · rcases hc with hc | hc
          · exact absurd hc h2
          · exact absurd hc h3
        · exact ⟨h1, h2, h3⟩
    · rw [if_neg hc]
      constructor
      · intro h
        rcases List.mem_cons.1 h with rfl | h
        · push_neg at hc
          exact ⟨List.mem_cons_self _ _, hc.1, hc.2⟩
        · obtain ⟨h1, h2, h3⟩ := (ih (x :: found) a).1 h
          refine ⟨List.mem_cons_of_mem _ h1, fun hf => h2 (List.mem_cons_of_mem _ hf), h3⟩
      · rintro ⟨h1, h2, h3⟩
        rcases List.mem_cons.1 h1 with rfl | h1
        · exact List.mem_cons_self _ _
        · by_cases hax : a = x
          · subst hax
            exact List.mem_cons_self _ _
          · refine List.mem_cons_of_mem _ ((ih (x :: found) a).2 ⟨h1, ?_, h3⟩)
            intro hf
            rcases List.mem_cons.1 hf with h | h
            · exact hax h
            · exact h2 h

theorem rdAux_nodup : ∀ (found l : List String), (rdAux found l).Nodup := by
  intro found l
  induction l generalizing found with
  | nil => simp [rdAux]
  | cons x xs ih =>
    rw [rdAux]
    by_cases hc : x ∈ found ∨ x = ""
    · rw [if_pos hc]
      exact ih found
    · rw [if_neg hc]
      refine List.nodup_cons.2 ⟨?_, ih (x :: found)⟩
      intro hmem
      obtain ⟨_, h2, _⟩ := (rdAux_mem (x :: found) xs x).1 hmem
      exact h2 (List.mem_cons_self _ _)

theorem rdAux_indexOf_lt : ∀ (found l : List String) (x y : String),
    x ≠ y → x ∈ rdAux found l → y ∈ rdAux found l →
    (List.indexOf x (rdAux found l) < List.indexOf y (rdAux found l)
      ↔ List.indexOf x l < List.indexOf y l) := by
  intro found l
  induction l generalizing found with
  | nil => simp [rdAux]
  | cons z xs ih =>
    intro x y hxy hx hy
    rw [rdAux] at hx hy ⊢
    by_cases hc : z ∈ found ∨ z = ""
    · rw [if_pos hc] at hx hy ⊢
      obtain ⟨_, hx2, hx3⟩ := (rdAux_mem found xs x).1 hx
      obtain ⟨_, hy2, hy3⟩ := (rdAux_mem found xs y).1 hy
      have hxz : x ≠ z := by
        rintro rfl
        rcases hc with hc | hc
        · exact hx2 hc
        · exact hx3 hc
      have hyz : y ≠ z := by
        rintro rfl
        rcases hc with hc | hc
        · exact hy2 hc
        · exact hy3 hc
      rw [List.indexOf_cons_ne _ (Ne.symm hxz), List.indexOf_cons_ne _ (Ne.symm hyz)]
      rw [ih found x y hxy hx hy]
      omega
    · rw [if_neg hc] at hx hy ⊢
      by_cases hxz : x = z
      · subst hxz
        have hyx : y ≠ x := Ne.symm hxy
        have hy' : y ∈ rdAux (x :: found) xs := by
          rcases List.mem_cons.1 hy with h | h
          · exact absurd h hyx
          · exact h
        have hyxs : y ∈ xs := ((rdAux_mem _ _ _).1 hy').1
        rw [List.indexOf_cons_self, List.indexOf_cons_self,
          List.indexOf_cons_ne _ hxy, List.indexOf_cons_ne _ hxy]
        simp
      · by_cases hyz : y = z
        · subst hyz
          rw [List.indexOf_cons_self, List.indexOf_cons_self,
            List.indexOf_cons_ne _ (Ne.symm hxz), List.indexOf_cons_ne _ (Ne.symm hxz)]
          simp
        · have hx' : x ∈ rdAux (z :: found) xs := by
            rcases List.mem_cons.1 hx with h | h
            · exact absurd h hxz
            · exact h
          have hy' : y ∈ rdAux (z :: found) xs := by
            rcases List.mem_cons.1 hy with h | h
            · exact absurd h hyz
            · exact h
          rw [List.indexOf_cons_ne _ (Ne.symm hxz), List.indexOf_cons_ne _ (Ne.symm hyz),
            List.indexOf_cons_ne _ (Ne.symm hxz), List.indexOf_cons_ne _ (Ne.symm hyz)]
          rw [Nat.succ_lt_succ_iff, Nat.succ_lt_succ_iff]
          exact ih (z :: found) x y hxy hx' hy'

/-- Claim C7: `SpinWhileThingsHappen` returns exactly the error value
produced by the worker `f` — nil iff `f` returned nil, and the same
non-nil error otherwise — for every interleaving of spinner ticks with
the worker's completion. -/
theorem C7_spin_returns_worker_result (n : ℕ) (e : Option String) (rest : List SpinEvent) :
    SpinWhileThingsHappen (List.replicate n SpinEvent.tick ++ SpinEvent.done e :: rest)
      = some e := by
  induction n with
  | zero => cases e <;> simp [SpinWhileThingsHappen]
  | succ n ih => simpa [SpinWhileThingsHappen, List.replicate_succ] using ih

/-- Claim C8: the string-slice helpers are deterministic pure functions
of their arguments: equal inputs give equal results.  (The sources of
`StringInSlice`, `RemoveDuplicates` and `CaseInsensitiveContains` read
and write no state outside their arguments, which is what makes this
state-free embedding exact.) -/
theorem C8_slice_helpers_deterministic :
    (∀ (a : String) (l₁ l₂ : List String), l₁ = l₂ → StringInSlice a l₁ = StringInSlice a l₂)
    ∧ (∀ (l₁ l₂ o₁ o₂ : List String), l₁ = l₂ → o₁ = o₂ →
        RemoveDuplicates l₁ o₁ = RemoveDuplicates l₂ o₂)
    ∧ (∀ (s₁ s₂ t₁ t₂ : String), s₁ = s₂ → t₁ = t₂ →
        CaseInsensitiveContains s₁ t₁ = CaseInsensitiveContains s₂ t₂) := by
  refine ⟨?_, ?_, ?_⟩
  · intro a l₁ l₂ h
    rw [h]
  · intro l₁ l₂ o₁ o₂ h1 h2
    rw [h1, h2]
  · intro s₁ s₂ t₁ t₂ h1 h2
    rw [h1, h2]

theorem C8_slice_helpers_deterministic_witness :
    StringInSlice "one" ["one", "two"] = StringInSlice "one" ["one", "two"]
    ∧ RemoveDuplicates ["x", "x"] [] = RemoveDuplicates ["x", "x"] []
    ∧ CaseInsensitiveContains "TestString" "test"
        = CaseInsensitiveContains "TestString" "test" :=
  ⟨C8_slice_helpers_deterministic.1 "one" _ _ rfl,
   C8_slice_helpers_deterministic.2.1 _ _ _ _ rfl rfl,
   C8_slice_helpers_deterministic.2.2 _ _ _ _ rfl rfl⟩

/-- Claim C5: `RemoveDuplicates` produces a list in which no element
occurs twice, the result is a subsequence of the original list, and the
order of kept elements is the order of their first occurrences in the
original list (`List.indexOf` is the position of the first occurrence). -/
theorem C5_removeDuplicates_nodup_sublist_order (l other : List String) (x y : String)
    (hxy : x ≠ y) (hx : x ∈ RemoveDuplicates l other) (hy : y ∈ RemoveDuplicates l other) :
    (RemoveDuplicates l other).Nodup
    ∧ List.Sublist (RemoveDuplicates l other) l
    ∧ (List.indexOf x (RemoveDuplicates l other) < List.indexOf y (RemoveDuplicates l other)
        ↔ List.indexOf x l < List.indexOf y l) := by
  rw [RemoveDuplicates_eq_rdAux] at hx hy ⊢
  exact ⟨rdAux_nodup other l, rdAux_sublist other l, rdAux_indexOf_lt other l x y hxy hx hy⟩

theorem C5_removeDuplicates_nodup_sublist_order_witness :
    (RemoveDuplicates ["b", "a", "b", ""] []).Nodup
    ∧ List.Sublist (RemoveDuplicates ["b", "a", "b", ""] []) ["b", "a", "b", ""]
    ∧ (List.indexOf "b" (RemoveDuplicates ["b", "a", "b", ""] [])
          < List.indexOf "a" (RemoveDuplicates ["b", "a", "b", ""] [])
        ↔ List.indexOf "b" ["b", "a", "b", ""] < List.indexOf "a" ["b", "a", "b", ""]) :=
  C5_removeDuplicates_nodup_sublist_order ["b", "a", "b", ""] [] "b" "a"
    (by decide) (by decide) (by decide)

/-- Claim C9: `RemoveDuplicates` removes more than duplicates: an element
is kept iff it occurs in the input, is not one of the
`otherStringsToClean`, and is not the empty string — so empty strings and
the extra strings are dropped even when they occur only once. -/
theorem C9_removeDuplicates_membership (l other : List String) (a : String) :
    a ∈ RemoveDuplicates l other ↔ a ∈ l ∧ a ∉ other ∧ a ≠ "" := by
  rw [RemoveDuplicates_eq_rdAux]
  exact rdAux_mem other l a

theorem flist_ind (P : List FNode → Prop) (h0 : P [])
    (hf : ∀ n c r, P r → P (FNode.file n c :: r))
    (hs : ∀ n r, P r → P (FNode.symlink n :: r))
    (hd : ∀ n cs r, P cs → P r → P (FNode.dir n cs :: r)) : ∀ l, P l := by
  have key : ∀ (k : ℕ) (l : List FNode), sizeOf l ≤ k → P l := by
    intro k
    induction k with
    | zero =>
      intro l hl
      cases l with
      | nil => exact h0
      | cons c r =>
        exfalso
        simp only [List.cons.sizeOf_spec] at hl
        omega
    | succ k ih =>
      intro l hl
      cases l with
      | nil => exact h0
      | cons c r =>
        cases c with
        | file n cnt => exact hf n cnt r (ih r (by simp at hl; omega))
        | symlink n => exact hs n r (ih r (by simp at hl; omega))
        | dir n cs => exact hd n cs r (ih cs (by simp at hl; omega)) (ih r (by simp at hl; omega))
  exact fun l => key (sizeOf l) l (Nat.le_refl _)

theorem passCount_zero_iff : ∀ l : List FNode, passCount l = 0 ↔ noEmpty l = true := by
  intro l
  induction l using flist_ind with
  | h0 => simp [passCount, noEmpty]
  | hf n c r ih => simpa [passCount, noEmpty] using ih
  | hs n r ih => simpa [passCount, noEmpty] using ih
  | hd n cs r ihcs ihr =>
    cases cs with
    | nil => simp [passCount, noEmpty]
    | cons c cs' =>
      simp [passCount, noEmpty, Nat.add_eq_zero, ihcs, ihr]

theorem passList_of_noEmpty : ∀ l : List FNode, noEmpty l = true → passList l = l := by
  intro l
  induction l using flist_ind with
  | h0 => intro _; simp [passList]
  | hf n c r ih =>
    intro h
    simp only [noEmpty] at h
    simp [passList, ih h]
  | hs n r ih =>
    intro h
    simp only [noEmpty] at h
    simp [passList, ih h]
  | hd n cs r ihcs ihr =>
    intro h
    cases cs with
    | nil => simp [noEmpty] at h
    | cons c cs' =>
      simp only [noEmpty, Bool.and_eq_true] at h
      simp [passList, ihcs h.1, ihr h.2]

theorem anyEntry_passList : ∀ l : List FNode, anyEntry (passList l) = anyEntry l := by
  intro l
  induction l using flist_ind with
  | h0 => simp [passList]
  | hf n c r ih => simp [passList, anyEntry]
  | hs n r ih => simp [passList, anyEntry]
  | hd n cs r ihcs ihr =>
    cases cs with
    | nil => simp [passList, anyEntry, ihr]
    | cons c cs' => simp [passList, anyEntry, ihcs, ihr]

theorem pruneList_passList : ∀ l : List FNode, pruneList (passList l) = pruneList l := by
  intro l
  induction l using flist_ind with
  | h0 => simp [passList]
  | hf n c r ih => simp [passList, pruneList, ih]
  | hs n r ih => simp [passList, pruneList, ih]
  | hd n cs r ihcs ihr =>
    cases cs with
    | nil => simp [passList, pruneList, anyEntry, ihr]
    | cons c cs' =>
      by_cases ha : anyEntry (c :: cs') = true
      · simp [passList, pruneList, anyEntry_passList, ha, ihcs, ihr]
      · simp only [Bool.not_eq_true] at ha
        simp [passList, pruneList, anyEntry_passList, ha, ihr]

theorem anyEntry_of_noEmpty : ∀ l : List FNode, noEmpty l = true → l ≠ [] →
    anyEntry l = true := by
  intro l
  induction l using flist_ind with
  | h0 => intro _ h; exact absurd rfl h
  | hf n c r ih => intro _ _; simp [anyEntry]
  | hs n r ih => intro _ _; simp [anyEntry]
  | hd n cs r ihcs ihr =>
    intro h _
    cases cs with
    | nil => simp [noEmpty] at h
    | cons c cs' =>
      simp only [noEmpty, Bool.and_eq_true] at h
      simp [anyEntry, ihcs h.1 (by simp)]

theorem pruneList_of_noEmpty : ∀ l : List FNode, noEmpty l = true → pruneList l = l := by
  intro l
  induction l using flist_ind with
  | h0 => intro _; simp [pruneList]
  | hf n c r ih =>
    intro h
    simp only [noEmpty] at h
    simp [pruneList, ih h]
  | hs n r ih =>
    intro h
    simp only [noEmpty] at h
    simp [pruneList, ih h]
  | hd n cs r ihcs ihr =>
    intro h
    cases cs with
    | nil => simp [noEmpty] at h
    | cons c cs' =>
      simp only [noEmpty, Bool.and_eq_true] at h
      simp [pruneList, anyEntry_of_noEmpty _ h.1 (by simp), ihcs h.1, ihr h.2]

theorem countDirs_passList : ∀ l : List FNode,
    countDirs (passList l) + passCount l = countDirs l := by
  intro l
  induction l using flist_ind with
  | h0 => simp [passList, countDirs, passCount]
  | hf n c r ih => simp only [passList, countDirs, passCount]; omega
  | hs n r ih => simp only [passList, countDirs, passCount]; omega
  | hd n cs r ihcs ihr =>
    cases cs with
    | nil => simp only [passList, countDirs, passCount]; omega
    | cons c cs' => simp only [passList, countDirs, passCount]; omega

theorem deleteLoop_prune : ∀ (k : ℕ) (l : List FNode), countDirs l ≤ k →
    deleteLoopFuel (k + 1) l = some (pruneList l) := by
  intro k
  induction k with
  | zero =>
    intro l hl
    have hz : passCount l = 0 := by
      have := countDirs_passList l
      omega
    have hne : noEmpty l = true := (passCount_zero_iff l).1 hz
    rw [deleteLoopFuel, if_pos hz, passList_of_noEmpty l hne, pruneList_of_noEmpty l hne]
  | succ k ih =>
    intro l hl
    by_cases hz : passCount l = 0
    · have hne : noEmpty l = true := (passCount_zero_iff l).1 hz
      rw [deleteLoopFuel, if_pos hz, passList_of_noEmpty l hne, pruneList_of_noEmpty l hne]
    · rw [deleteLoopFuel, if_neg hz]
      have hc : countDirs (passList l) ≤ k := by
        have := countDirs_passList l
        omega
      rw [ih (passList l) hc, pruneList_passList]

/-- Claim C3: `DeleteEmptyFolders` never removes the root itself (the
result is still `dir n _`, even when the whole tree under it is erased),
the repeated full scans terminate (within `countDirs cs + 1` passes,
since every productive pass removes at least one directory), and on
return every proper subdirectory whose subtree contained no file or
symlink — i.e. every directory that was empty or became empty after its
empty children were removed — has been removed, and nothing else:
the result is exactly `pruneList` of the root's children. -/
theorem C3_deleteEmptyFolders_prunes (n : String) (cs : List FNode) :
    DeleteEmptyFolders (FNode.dir n cs) (countDirs cs + 1)
      = some (FNode.dir n (pruneList cs)) := by
  rw [DeleteEmptyFolders, deleteLoop_prune (countDirs cs) cs (Nat.le_refl _)]
  rfl

theorem copyChildren_ok : ∀ l : List FNode, copyChildren l = Except.ok (specCopyList l) := by
  intro l
  induction l using flist_ind with
  | h0 => simp [copyChildren, specCopyList]
  | hf n c r ih => simp [copyChildren, specCopyList, CopyFile, ih]
  | hs n r ih => simp [copyChildren, specCopyList, ih]
  | hd n cs r ihcs ihr => simp [copyChildren, specCopyList, ihcs, ihr]

/-- The recursive `CopyDir` call made for a directory entry (with its
fresh destination path) is, after its trivially-satisfied checks, the
entry loop on the entry's children. -/
theorem CopyDir_dir_unfold (n : String) (cs rest : List FNode) :
    copyChildren (FNode.dir n cs :: rest)
      = match CopyDir (some (FNode.dir n cs)) none with
        | Except.error e => Except.error e
        | Except.ok x =>
          match copyChildren rest with
          | Except.error e => Except.error e
          | Except.ok rs => Except.ok (x :: rs) := by
  rw [copyChildren, CopyDir]
  cases h : copyChildren cs <;> cases h2 : copyChildren rest <;> rfl

/-- Claim C6: `CopyDir` errors out, copying nothing, when its
preconditions fail — an absent source is an error, a source that exists
but is a regular file is the "source is not a directory" error, an
existing destination is the "destination already exists" error — and
when the preconditions hold it copies regular files, recurses into
subdirectories and silently skips symlinks, producing exactly
`specCopyList` of the source tree.  (A symlink at the source path itself
is outside the model: `os.Stat` would follow it.) -/
theorem C6_copyDir_spec (d : FNode) (dst : Option FNode) (n nf cf : String)
    (cs : List FNode) :
    (∃ e, CopyDir none dst = Except.error e)
    ∧ CopyDir (some (FNode.file nf cf)) dst = Except.error "source is not a directory"
    ∧ CopyDir (some (FNode.dir n cs)) (some d) = Except.error "destination already exists"
    ∧ CopyDir (some (FNode.dir n cs)) none = Except.ok (FNode.dir n (specCopyList cs)) := by
  refine ⟨⟨"source does not exist", rfl⟩, rfl, rfl, ?_⟩
  rw [CopyDir, copyChildren_ok cs]

theorem guLoop_stuck (existing : List String) (mk : ℕ → String) (a : ℕ) (ha : 50 < a)
    (hnot : mk a ∉ existing) :
    ∀ (fuel : ℕ) (acc : String), guLoop existing mk fuel true a acc = none := by
  intro fuel
  induction fuel with
  | zero =>
    intro acc
    rw [guLoop, if_pos (Or.inr ha)]
  | succ k ih =>
    intro acc
    rw [guLoop, if_pos (Or.inr ha), if_neg hnot]
    exact ih (mk a)

theorem guLoop_diverges (existing : List String) (mk : ℕ → String)
    (hin : ∀ i, i ≤ 50 → mk i ∈ existing) (hout : mk 51 ∉ existing) :
    ∀ (fuel a : ℕ), a ≤ 51 → guLoop existing mk fuel false a "" = none := by
  intro fuel
  induction fuel with
  | zero =>
    intro a _
    rw [guLoop, if_pos (Or.inl rfl)]
  | succ k ih =>
    intro a ha
    rw [guLoop, if_pos (Or.inl rfl)]
    by_cases hc : a ≤ 50
    · rw [if_pos (hin a hc)]
      exact ih (a + 1) (by omega)
    · have h51 : a = 51 := by omega
      subst h51
      rw [if_neg hout]
      exact guLoop_stuck existing mk 51 (by omega) hout k (mk 51)

/-- Claim C2 fails on the code: on a directory that already holds the
candidate files for attempts 0 through 50, `GetUniqueTimestampedFilename`
never returns — for every number of loop iterations the loop is still
running.  The loop condition `for !uniqueNameFound || attempts > 50`
keeps the loop alive forever once the free name is found at
`attempts = 51 > 50` (the branch that finds the candidate free does not
increment `attempts`, so the state never changes again). -/
theorem C2_getUnique_diverges_on_51_collisions (fuel : ℕ) :
    GetUniqueTimestampedFilename guBadExisting "d" "2026-10-11 12:00:00" "file" fuel
      = none := by
  rw [GetUniqueTimestampedFilename]
  apply guLoop_diverges
  · intro i hi
    rw [guBadExisting]
    exact List.mem_map.2 ⟨i, List.mem_range.2 (by omega), rfl⟩
  · decide
  · omega

theorem replaceAll_of_no_occurrence (pat : List Char) :
    ∀ s : List Char, ¬ pat <:+: s → replaceAll s pat = s := by
  intro s
  induction s with
  | nil => intro _; rw [replaceAll]
  | cons c rest ih =>
    intro h
    rw [replaceAll, if_neg, ih (fun hi => h (List.infix_cons hi))]
    rintro ⟨-, hpre⟩
    rw [List.isPrefixOf_iff_prefix] at hpre
    exact h hpre.isInfix

theorem replaceAll_append_self (pat e : List Char) (hne : pat ≠ [])
    (h : ¬ pat <:+: e) : replaceAll (pat ++ e) pat = e := by
  cases hp : pat with
  | nil => exact absurd hp hne
  | cons p ps =>
    rw [← hp]
    have hcons : pat ++ e = p :: (ps ++ e) := by rw [hp]; rfl
    rw [hcons, replaceAll, if_pos, ← hcons, List.drop_left]
    · exact replaceAll_of_no_occurrence pat e h
    · refine ⟨hne, ?_⟩
      rw [List.isPrefixOf_iff_prefix, ← hcons]
      exact List.prefix_append pat e

theorem infix_append_decompose {α : Type} {p s t : List α} (h : p <:+: (s ++ t)) :
    p <:+: s ∨ p <:+: t
    ∨ ∃ n, 0 < n ∧ n < p.length ∧ (List.take n p <:+ s) ∧ (List.drop n p <+: t) := by
  obtain ⟨u, v, huv⟩ := h
  by_cases h1 : u.length + p.length ≤ s.length
  · left
    refine ⟨u, List.take (s.length - (u ++ p).length) v, ?_⟩
    have h := congrArg (List.take s.length) huv
    rw [List.take_left] at h
    rw [List.take_append_eq_append_take] at h
    rw [List.take_of_length_le (by rw [List.length_append]; omega)] at h
    exact h
  · by_cases h2 : s.length ≤ u.length
    · right; left
      refine ⟨List.drop s.length u, v, ?_⟩
      have h := congrArg (List.drop s.length) huv
      rw [List.drop_left] at h
      rw [List.drop_append_eq_append_drop, List.drop_append_eq_append_drop] at h
      rw [Nat.sub_eq_zero_of_le h2, List.drop_zero] at h
      rw [Nat.sub_eq_zero_of_le (by rw [List.length_append]; omega), List.drop_zero] at h
      exact h
    · right; right
      have hz : s.length - (u ++ p).length = 0 := by rw [List.length_append]; omega
      refine ⟨s.length - u.length, by omega, by omega, ⟨u, ?_⟩, ⟨v, ?_⟩⟩
      · have h := congrArg (List.take s.length) huv
        rw [List.take_left] at h
        rw [List.take_append_eq_append_take, hz, List.take_zero, List.append_nil] at h
        rw [List.take_append_eq_append_take] at h
        rw [List.take_of_length_le (by omega)] at h
        exact h
      · have h := congrArg (List.drop s.length) huv
        rw [List.drop_left] at h
        rw [List.drop_append_eq_append_drop, hz, List.drop_zero] at h
        rw [List.drop_append_eq_append_drop] at h
        rw [List.drop_eq_nil_of_le (by omega), List.nil_append] at h
        exact h

theorem cyan_not_infix_in_yellow_append (e : List Char)
    (he : ¬ (CyanBold LocalTag).data <:+: e) :
    ¬ (CyanBold LocalTag).data <:+: ((YellowBold OnlineTag).data ++ e) := by
  intro h
  rcases infix_append_decompose h with h | h | ⟨n, hn0, hnl, hsuf, _⟩
  · exact absurd h (by decide)
  · exact he h
  · have hkill : ∀ m : ℕ, m < (CyanBold LocalTag).data.length → 0 < m →
        ¬ (List.take m (CyanBold LocalTag).data <:+ (YellowBold OnlineTag).data) := by
      decide
    exact hkill n hnl hn0 hsuf

/-- Claim C10: `Tag` and `unTag` round-trip: for every entry containing
neither the rendered `LocalTag` nor the rendered `OnlineTag`, and either
tag kind, `unTag (Tag entry isLocal)` is `entry` with surrounding
whitespace trimmed. -/
theorem C10_tag_unTag_roundtrip (entry : String) (isLocal : Bool)
    (h1 : ¬ (CyanBold LocalTag).data <:+: entry.data)
    (h2 : ¬ (YellowBold OnlineTag).data <:+: entry.data) :
    unTag (Tag entry isLocal) = trimSpaceS entry := by
  have hcne : (CyanBold LocalTag).data ≠ [] := by decide
  have hyne : (YellowBold OnlineTag).data ≠ [] := by decide
  cases isLocal with
  | true =>
    rw [Tag, if_pos rfl, unTag, String.data_append]
    rw [replaceAll_append_self _ _ hcne h1]
    rw [replaceAll_of_no_occurrence _ _ h2]
    rfl
  | false =>
    rw [Tag, if_neg (by simp), unTag, String.data_append]
    rw [replaceAll_of_no_occurrence _ _ (cyan_not_infix_in_yellow_append entry.data h1)]
    rw [replaceAll_append_self _ _ hyne h2]
    rfl

theorem C10_tag_unTag_roundtrip_witness :
    unTag (Tag " Dune " true) = trimSpaceS " Dune "
    ∧ unTag (Tag " Dune " false) = trimSpaceS " Dune " :=
  ⟨C10_tag_unTag_roundtrip " Dune " true (by decide) (by decide),
   C10_tag_unTag_roundtrip " Dune " false (by decide) (by decide)⟩

theorem goAtoi_head (c : String) (i : Int) (h : goAtoi c = some i) :
    ∃ d ds, c.data = d :: ds ∧ (d = '+' ∨ d = '-' ∨ d ∈ digitChars) := by
  cases hd : c.data with
  | nil =>
    rw [goAtoi, hd] at h
    simp at h
  | cons d ds =>
    refine ⟨d, ds, rfl, ?_⟩
    by_cases h1 : d = '+'
    · exact Or.inl h1
    · by_cases h2 : d = '-'
      · exact Or.inr (Or.inl h2)
      · refine Or.inr (Or.inr ?_)
        rw [goAtoi, hd] at h
        simp only [if_neg h1, if_neg h2] at h
        rw [digitsVal] at h
        by_cases h3 : d :: ds ≠ [] ∧ (d :: ds).all (fun x => decide (x ∈ digitChars))
        · have := h3.2
          simp only [List.all_cons, Bool.and_eq_true, decide_eq_true_eq] at this
          exact this.1
        · rw [if_neg h3] at h
          simp at h

theorem goAtoi_not_letter (c : String) (i : Int) (h : goAtoi c = some i) :
    goToUpper c ≠ "E" ∧ goToUpper c ≠ "A" ∧ goToUpper c ≠ "B" := by
  obtain ⟨d, ds, hd, hdmem⟩ := goAtoi_head c i h
  have hchar : d.toUpper ≠ 'E' ∧ d.toUpper ≠ 'A' ∧ d.toUpper ≠ 'B' := by
    have hall : ∀ x ∈ '+' :: '-' :: digitChars,
        x.toUpper ≠ 'E' ∧ x.toUpper ≠ 'A' ∧ x.toUpper ≠ 'B' := by decide
    rcases hdmem with rfl | rfl | hmem
    · exact hall _ (by simp)
    · exact hall _ (by simp)
    · exact hall d (by simp [hmem])
  refine ⟨?_, ?_, ?_⟩ <;> intro heq
  · have heq2 : c.data.map Char.toUpper = "E".data := congrArg String.data heq
    rw [hd, List.map_cons, show "E".data = ['E'] from rfl] at heq2
    simp only [List.cons.injEq] at heq2
    exact hchar.1 heq2.1
  · have heq2 : c.data.map Char.toUpper = "A".data := congrArg String.data heq
    rw [hd, List.map_cons, show "A".data = ['A'] from rfl] at heq2
    simp only [List.cons.injEq] at heq2
    exact hchar.2.1 heq2.1
  · have heq2 : c.data.map Char.toUpper = "B".data := congrArg String.data heq
    rw [hd, List.map_cons, show "B".data = ['B'] from rfl] at heq2
    simp only [List.cons.injEq] at heq2
    exact hchar.2.2 heq2.1

theorem selLoop_all_invalid : ∀ (k : ℕ), 1 ≤ k → ∀ (opts : List String) (lf : Bool)
    (stdin editor : List String) (errs : ℕ),
    (∀ c ∈ stdin, invalidSelInput opts c = true) →
    errs + k = 11 → k ≤ stdin.length →
    selLoop opts lf k stdin editor errs = some (Except.error (UIErr.msg invalidChoice)) := by
  intro k
  induction k with
  | zero => intro h; exact absurd h (by omega)
  | succ k ih =>
    intro _ opts lf stdin editor errs hinv herr hlen
    cases stdin with
    | nil => exact absurd hlen (by simp)
    | cons c s1 =>
      have hc := hinv c (List.mem_cons_self _ _)
      rw [invalidSelInput] at hc
      cases hAtoi : goAtoi c with
      | none =>
        rw [hAtoi] at hc
        simp only [Bool.and_eq_true, decide_eq_true_eq] at hc
        obtain ⟨⟨⟨hE, hA⟩, hB⟩, -⟩ := hc
        simp only [selLoop]
        rw [if_neg hE, if_neg hA, if_neg hB]
        simp only [hAtoi]
        by_cases h10 : errs + 1 > 10
        · rw [if_pos h10]
        · rw [if_neg h10]
          refine ih (by omega) opts lf s1 editor (errs + 1)
            (fun c' hc' => hinv c' (List.mem_cons_of_mem _ hc')) (by omega) ?_
          simp only [List.length_cons] at hlen
          omega
      | some i =>
        rw [hAtoi] at hc
        simp only [Bool.and_eq_true, decide_eq_true_eq] at hc
        obtain ⟨⟨⟨hE, hA⟩, hB⟩, hidx⟩ := hc
        simp only [selLoop]
        rw [if_neg hE, if_neg hA, if_neg hB]
        simp only [hAtoi]
        rw [if_neg hidx]
        by_cases h10 : errs + 1 > 10
        · rw [if_pos h10]
        · rw [if_neg h10]
          refine ih (by omega) opts lf s1 editor (errs + 1)
            (fun c' hc' => hinv c' (List.mem_cons_of_mem _ hc')) (by omega) ?_
          simp only [List.length_cons] at hlen
          omega

theorem updLoop_all_invalid : ∀ (k : ℕ), 1 ≤ k → ∀ (old : String) (lf : Bool)
    (stdin editor : List String) (errs : ℕ),
    (∀ c ∈ stdin, goToLower c ≠ "e" ∧ goToLower c ≠ "k") →
    errs + k = 11 → k ≤ stdin.length →
    updLoop old lf k stdin editor errs = some (Except.error (UIErr.msg invalidChoice)) := by
  intro k
  induction k with
  | zero => intro h; exact absurd h (by omega)
  | succ k ih =>
    intro _ old lf stdin editor errs hinv herr hlen
    cases stdin with
    | nil => exact absurd hlen (by simp)
    | cons c s1 =>
      obtain ⟨he, hk⟩ := hinv c (List.mem_cons_self _ _)
      simp only [updLoop]
      rw [if_neg he, if_neg hk]
      by_cases h10 : errs + 1 > 10
      · rw [if_pos h10]
      · rw [if_neg h10]
        refine ih (by omega) old lf s1 editor (errs + 1)
          (fun c' hc' => hinv c' (List.mem_cons_of_mem _ hc')) (by omega) ?_
        simp only [List.length_cons] at hlen
        omega

/-- Claim C1: the retry loops of `SelectOption` and `UpdateValue` have
bounded-error abort semantics: every invalid input (one no branch
accepts) increments the error counter, and as soon as it exceeds 10 the
function returns the `invalidChoice` error — so on a stream of invalid
inputs neither loop runs beyond 11 iterations (fuel 11 suffices for any
such stream, whatever the editor stream and flags). -/
theorem C1_retry_loops_bounded_abort :
    (∀ (opts : List String) (lf : Bool) (stdin editor : List String),
      (∀ c ∈ stdin, invalidSelInput (RemoveDuplicates opts []) c = true) →
      11 ≤ stdin.length →
      SelectOption opts lf 11 stdin editor = some (Except.error (UIErr.msg invalidChoice)))
    ∧ (∀ (old : String) (lf : Bool) (stdin editor : List String),
      (∀ c ∈ stdin, goToLower c ≠ "e" ∧ goToLower c ≠ "k") →
      11 ≤ stdin.length →
      UpdateValue old lf 11 stdin editor = some (Except.error (UIErr.msg invalidChoice))) := by
  constructor
  · intro opts lf stdin editor hinv hlen
    exact selLoop_all_invalid 11 (by omega) (RemoveDuplicates opts []) lf stdin editor 0
      hinv (by omega) hlen
  · intro old lf stdin editor hinv hlen
    exact updLoop_all_invalid 11 (by omega) old lf stdin editor 0 hinv (by omega) hlen

theorem C1_retry_loops_bounded_abort_witness :
    SelectOption ["foo"] false 11 (List.replicate 11 "zz") []
      = some (Except.error (UIErr.msg invalidChoice))
    ∧ UpdateValue "old" false 11 (List.replicate 11 "zz") []
      = some (Except.error (UIErr.msg invalidChoice)) :=
  ⟨C1_retry_loops_bounded_abort.1 ["foo"] false (List.replicate 11 "zz") []
      (by decide) (by decide),
   C1_retry_loops_bounded_abort.2 "old" false (List.replicate 11 "zz") []
      (by decide) (by decide)⟩

/-- Claim C4: in `SelectOption`, with `options` the deduplicated list
(`RemoveDuplicates` with no extra strings): entering a number `i` with
`1 ≤ i ≤ len(options)` returns the untagged `options[i-1]` with nil
error; entering `B` in any case returns the empty string with nil error;
entering `A` in any case returns the empty string with the `userAborted`
error. -/
theorem C4_selectOption_branches (opts stdin editor : List String) (lf : Bool)
    (fuel : ℕ) (b a num : String) (i : Int)
    (hb : goToUpper b = "B") (ha : goToUpper a = "A")
    (hnum : goAtoi num = some i) (hi1 : 0 < i)
    (hi2 : i ≤ ((RemoveDuplicates opts []).length : Int)) :
    SelectOption opts lf (fuel + 1) (b :: stdin) editor = some (Except.ok "")
    ∧ SelectOption opts lf (fuel + 1) (a :: stdin) editor
        = some (Except.error (UIErr.msg userAborted))
    ∧ SelectOption opts lf (fuel + 1) (num :: stdin) editor
        = some (Except.ok (unTag ((RemoveDuplicates opts []).getD (i.toNat - 1) ""))) := by
  obtain ⟨hnE, hnA, hnB⟩ := goAtoi_not_letter num i hnum
  refine ⟨?_, ?_, ?_⟩
  · rw [SelectOption]
    simp only [selLoop]
    rw [if_neg (by rw [hb]; decide), if_neg (by rw [hb]; decide), if_pos hb]
  · rw [SelectOption]
    simp only [selLoop]
    rw [if_neg (by rw [ha]; decide), if_pos ha]
  · rw [SelectOption]
    simp only [selLoop]
    rw [if_neg hnE, if_neg hnA, if_neg hnB]
    simp only [hnum]
    rw [if_pos ⟨hi1, hi2⟩]

theorem C4_selectOption_branches_witness :
    SelectOption ["x", "y"] false 1 ["b"] [] = some (Except.ok "")
    ∧ SelectOption ["x", "y"] false 1 ["A"] []
        = some (Except.error (UIErr.msg userAborted))
    ∧ SelectOption ["x", "y"] false 1 ["2"] []
        = some (Except.ok (unTag ((RemoveDuplicates ["x", "y"] []).getD ((2 : Int).toNat - 1) ""))) :=
  C4_selectOption_branches ["x", "y"] [] [] false 0 "b" "A" "2" 2
    (by decide) (by decide) (by decide) (by decide) (by decide)
